import Mathlib

/-!
Shallow embedding of `src/pdf_page_filter.py` (printed-page-number detection,
gap interpolation, and page-range parsing), together with proofs of the
specification's claims about it.

Python dictionaries mapping physical page index to printed page number are
modelled as association lists (`PageMap`) consulted through `lookupPage`;
Python integers are `Int` (printed numbers) and `Nat` (physical indices,
which the source only ever produces from `range(total_pages)` and sorted
key lists). Text is a `List Char`.
-/

namespace PdfPageFilter

/-- A Python dict from physical page index to printed page number,
as an association list (first binding wins, as dict keys are unique). -/
abbrev PageMap := List (Nat × Int)

/-- Dictionary lookup: `page_mapping[k]` / `k in page_mapping`. -/
def lookupPage : PageMap → Nat → Option Int
  | [], _ => none
  | (k, v) :: rest, i => if i = k then some v else lookupPage rest i

/-- `if phys_idx not in interpolated: interpolated[phys_idx] = v`
(the only way `interpolate_missing_pages` ever writes to the dict,
except in the two loops that re-check membership themselves). -/
def insertIfAbsent (m : PageMap) (k : Nat) (v : Int) : PageMap :=
  if lookupPage m k = none then (k, v) :: m else m

/-! ## Detection: `extract_page_number_from_text` (lines 25-61) -/

/-- Python regex `\s` on the ASCII range (`' '`, `\t`, `\n`, `\r`, `\v`, `\f`);
Unicode space characters are not modelled. -/
def isPySpace (c : Char) : Bool :=
  c = ' ' || c = '\t' || c = '\n' || c = '\r' || c = '\x0b' || c = '\x0c'

/-- `int(...)` applied to a string of ASCII decimal digits. -/
def digitsToNat (ds : List Char) : Nat :=
  ds.foldl (fun acc c => acc * 10 + (c.toNat - '0'.toNat)) 0

/-- `text.strip()`: remove leading and trailing whitespace. -/
def pyStrip (s : List Char) : List Char :=
  ((s.dropWhile isPySpace).reverse.dropWhile isPySpace).reverse

/-- Helper for `str.split(sep)`: accumulate the current piece (reversed). -/
def splitAux (sep : Char) : List Char → List Char → List (List Char)
  | [], acc => [acc.reverse]
  | c :: rest, acc =>
      if c = sep then acc.reverse :: splitAux sep rest [] else splitAux sep rest (c :: acc)

/-- `text.split(sep)` (no maxsplit): always returns at least one piece. -/
def pySplit (sep : Char) (s : List Char) : List (List Char) := splitAux sep s []

/-- Pattern 1, `^\s*(\d+)\s*$`: a line that is exactly
whitespace, a digit run (the capture), then whitespace. -/
def matchJustNumber (line : List Char) : Option (List Char) :=
  let rest := line.dropWhile isPySpace
  let digits := rest.takeWhile Char.isDigit
  let after := rest.dropWhile Char.isDigit
  if digits ≠ [] ∧ after.all isPySpace then some digits else none

/-- Pattern 2, `^\s*-?\s*(\d+)\s*-?\s*$`: a number between optional dashes
(`- 5 -`). The regex is deterministic (each `-?` must consume a dash when one
is present, since `\s*` and `\d+` cannot). -/
def matchDashNumber (line : List Char) : Option (List Char) :=
  let r1 := line.dropWhile isPySpace
  let r2 := match r1 with
    | '-' :: t => t.dropWhile isPySpace
    | _ => r1
  let digits := r2.takeWhile Char.isDigit
  let r3 := (r2.dropWhile Char.isDigit).dropWhile isPySpace
  let r4 := match r3 with
    | '-' :: t => t
    | _ => r3
  if digits ≠ [] ∧ r4.all isPySpace then some digits else none

/-- Pattern 3, `^\s*Page\s+(\d+)` with `re.IGNORECASE`: the word "Page"
(any casing) after leading whitespace, at least one whitespace, then digits. -/
def matchPageWord (line : List Char) : Option (List Char) :=
  match line.dropWhile isPySpace with
  | c1 :: c2 :: c3 :: c4 :: rest =>
      if c1.toLower = 'p' ∧ c2.toLower = 'a' ∧ c3.toLower = 'g' ∧ c4.toLower = 'e' then
        match rest with
        | c5 :: rest2 =>
            if isPySpace c5 then
              let ds := (rest2.dropWhile isPySpace).takeWhile Char.isDigit
              if ds ≠ [] then some ds else none
            else none
        | [] => none
      else none
  | _ => none

/-- Pattern 4, `^\s*P\.?\s*(\d+)` with `re.IGNORECASE`:
"P. 5", "P 5" or "P5" (any casing of the P). -/
def matchPAbbrev (line : List Char) : Option (List Char) :=
  match line.dropWhile isPySpace with
  | c :: rest =>
      if c.toLower = 'p' then
        let rest2 := match rest with
          | '.' :: t => t
          | _ => rest
        let ds := (rest2.dropWhile isPySpace).takeWhile Char.isDigit
        if ds ≠ [] then some ds else none
      else none
  | [] => none

/-- Pattern 5, `(?:^|\s)(\d{1,4})(?:\s|$)` under `re.search`: leftmost
standalone 1-4 digit run bounded by whitespace or line edges. The boolean
flag records whether the current position is the line start or preceded by
whitespace (the only positions where `(?:^|\s)` can match); a longer digit
run never matches, and no match can start inside a digit run. -/
def standaloneFrom : Bool → List Char → Option (List Char)
  | _, [] => none
  | atBoundary, c :: rest =>
      if atBoundary ∧ c.isDigit then
        let run := (c :: rest).takeWhile Char.isDigit
        let after := (c :: rest).dropWhile Char.isDigit
        let ok : Bool := match after with
          | [] => true
          | a :: _ => isPySpace a
        if run.length ≤ 4 ∧ ok then some run
        else standaloneFrom (isPySpace c) rest
      else standaloneFrom (isPySpace c) rest

/-- Pattern 5 entry point: `re.search` starts at the line start. -/
def matchStandalone (line : List Char) : Option (List Char) := standaloneFrom true line

/-- The ordered pattern list of `extract_page_number_from_text`. -/
def patterns : List (List Char → Option (List Char)) :=
  [matchJustNumber, matchDashNumber, matchPageWord, matchPAbbrev, matchStandalone]

/-- Inner loop: try each pattern on one line; a match is returned only if its
integer value is in `[1, 9999]`, otherwise the scan moves to the next pattern. -/
def scanPatterns : List (List Char → Option (List Char)) → List Char → Option Nat
  | [], _ => none
  | p :: ps, line =>
      match p line with
      | some ds =>
          let page_num := digitsToNat ds
          if 1 ≤ page_num ∧ page_num ≤ 9999 then some page_num else scanPatterns ps line
      | none => scanPatterns ps line

/-- Outer loop: first line whose pattern scan accepts a number wins. -/
def scanLines : List (List Char) → Option Nat
  | [] => none
  | l :: ls =>
      match scanPatterns patterns l with
      | some n => some n
      | none => scanLines ls

/-- `extract_page_number_from_text` (lines 25-61): guard falsy text, take the
first 5 lines of the stripped text, scan them. (The source also joins the
lines into `top_text`, which it never uses.) -/
def extract_page_number_from_text (text : List Char) : Option Nat :=
  if text = [] then none
  else scanLines ((pySplit '\n' (pyStrip text)).take 5)

/-- The Python parameter is `str | None`; `None`, like the empty string,
is falsy and yields no detection. -/
def extractFromOptionalText : Option (List Char) → Option Nat
  | none => none
  | some text => extract_page_number_from_text text

/-! ## `parse_page_ranges` (lines 219-261) -/

/-- `part.split('-', 1)`: the piece before the first dash and the piece after
it (only used when a dash is known to be present). -/
def splitFirstDash : List Char → List Char × List Char
  | [] => ([], [])
  | c :: rest =>
      if c = '-' then ([], rest)
      else
        let p := splitFirstDash rest
        (c :: p.1, p.2)

/-- `int()` on an optionally signed digit string, `ValueError` as `none`.
(`int` also strips whitespace; underscore digit separators are not modelled.) -/
def digitsVal (ds : List Char) : Option Int :=
  if ds ≠ [] ∧ ds.all Char.isDigit then some (digitsToNat ds : Int) else none

/-- Python `int(s)` for `ValueError`-prone conversion of a token. -/
def pyInt (s : List Char) : Option Int :=
  match pyStrip s with
  | '+' :: ds => digitsVal ds
  | '-' :: ds => Option.map (fun n => -n) (digitsVal ds)
  | ds => digitsVal ds

/-- `range(a, b + 1)` over integers: `[a, a+1, ..., b]` (empty when `b < a`). -/
def intRange (a b : Int) : List Int :=
  (List.range (b + 1 - a).toNat).map (fun j : Nat => a + (j : Int))

/-- Values one (already stripped) token contributes to the page set: empty
tokens and the failure arms of both `try` blocks and the reversed-range check
contribute nothing, without stopping the loop over the remaining tokens. -/
def tokenVals (part : List Char) : List Int :=
  if part = [] then []
  else if part.contains '-' then
    match pyInt (splitFirstDash part).1, pyInt (splitFirstDash part).2 with
    | some a, some b => if a > b then [] else intRange a b
    | _, _ => []
  else
    match pyInt part with
    | some n => [n]
    | none => []

/-- `parse_page_ranges` (lines 219-261): split on commas, strip each part,
accumulate each token's values into the `pages` set, return `sorted(list(pages))`
(the set is modelled by deduplicating the accumulated list before sorting). -/
def parse_page_ranges (range_string : List Char) : List Int :=
  let parts := (pySplit ',' range_string).map pyStrip
  let pages := parts.foldl (fun acc part => acc ++ tokenVals part) []
  List.insertionSort (· ≤ ·) pages.dedup

/-! ## Interpolation: `interpolate_missing_pages` (lines 109-216) -/

/-- `sorted(page_mapping.keys())` together with each key's value: the
detected entries sorted by physical index. -/
def anchors (m : PageMap) : PageMap := List.insertionSort (fun a b => a.1 ≤ b.1) m

/-- The pairs `(detected_indices[i], detected_indices[i+1])` of the interior
gap loop (line 134), with their printed numbers. -/
def consecPairs : List (Nat × Int) → List ((Nat × Int) × (Nat × Int))
  | a :: b :: rest => (a, b) :: consecPairs (b :: rest)
  | _ => []

/-- A loop `for j in js: if key j not in interpolated: interpolated[key j] = val j`.
Used by the perfect-gap branch (lines 151-157) and forward extension (lines 203-208). -/
def fillLoop (key : Nat → Nat) (val : Nat → Int) (js : List Nat) (interp : PageMap) : PageMap :=
  js.foldl (fun ip j => insertIfAbsent ip (key j) (val j)) interp

/-- One iteration of the one-unnumbered-page branch (lines 161-174): state is
`(interpolated, current_page)`; an already-present index is skipped, and a
candidate that would reach `page_end` is left unfilled without advancing
`current_page`. -/
def skipStep (phys_start : Nat) (page_end : Int) (st : PageMap × Int) (j : Nat) :
    PageMap × Int :=
  let phys_idx := phys_start + j
  if lookupPage st.1 phys_idx = none then
    let expected_page := st.2 + 1
    if expected_page < page_end then ((phys_idx, expected_page) :: st.1, expected_page)
    else st
  else st

/-- The body of the interior gap loop for one consecutive anchor pair
(lines 134-174). `phys_gap` is a `Nat` subtraction: the pairs always come from
the strictly ascending `detected_indices`, so it agrees with Python's integer
subtraction, and when it does not (`phys_end ≤ phys_start`) both guards fail. -/
def fillPair (interp : PageMap) (pq : (Nat × Int) × (Nat × Int)) : PageMap :=
  let phys_start := pq.1.1
  let page_start := pq.1.2
  let phys_end := pq.2.1
  let page_end := pq.2.2
  let phys_gap : Nat := phys_end - phys_start
  let page_gap : Int := page_end - page_start
  if 1 < phys_gap ∧ phys_gap ≤ 10 ∧
      (phys_gap : Int) - 2 ≤ page_gap ∧ page_gap ≤ (phys_gap : Int) + 2 then
    if page_gap = (phys_gap : Int) then
      fillLoop (fun j => phys_start + j) (fun j => page_start + (j : Int))
        (List.range' 1 (phys_gap - 1)) interp
    else if page_gap = (phys_gap : Int) - 1 then
      ((List.range' 1 (phys_gap - 1)).foldl (skipStep phys_start page_end)
        (interp, page_start)).1
    else interp
  else interp

/-- The interior gap pass: fold the gap-filling body over all consecutive
anchor pairs, starting from the copied detected map. -/
def interiorPass (m : PageMap) : PageMap := (consecPairs (anchors m)).foldl fillPair m

/-- Backward extension loop (lines 183-190): `for phys_idx in
range(first_detected - 1, -1, -1)` with an `else: break`. The counter is the
number of remaining indices; iteration `k + 1` handles `phys_idx = k`. -/
def backLoop (idx0 : Nat) (num0 : Int) : Nat → PageMap → PageMap
  | 0, interp => interp
  | k + 1, interp =>
      let inferred_page : Int := num0 - ((idx0 : Int) - (k : Int))
      if 1 ≤ inferred_page ∧ lookupPage interp k = none then
        backLoop idx0 num0 k ((k, inferred_page) :: interp)
      else interp

/-- Backward extension (lines 176-190), from the first anchor. -/
def backwardPass (as : PageMap) (interp : PageMap) : PageMap :=
  match as with
  | [] => interp
  | (idx0, num0) :: _ =>
      if 1 < num0 ∧ num0 - 1 ≤ (idx0 : Int) then backLoop idx0 num0 idx0 interp
      else interp

/-- Forward extension (lines 192-208), from the last anchor, only when the
last two anchors are physically adjacent. -/
def forwardPass (as : PageMap) (total_pages : Nat) (interp : PageMap) : PageMap :=
  match as.getLast?, as.dropLast.getLast? with
  | some (idxN, numN), some (idxP, _) =>
      if (idxN : Int) - (idxP : Int) = 1 then
        fillLoop (fun i => i) (fun i => numN + ((i : Int) - (idxN : Int)))
          (List.range' (idxN + 1) (total_pages - (idxN + 1))) interp
      else interp
  | _, _ => interp

/-- `interpolate_missing_pages` (lines 109-216): return the empty map
unchanged, else run the interior gap pass, backward extension, then forward
extension on a copy of the detected map. -/
def interpolate_missing_pages (page_mapping : PageMap) (total_pages : Nat) : PageMap :=
  if page_mapping = [] then page_mapping
  else
    forwardPass (anchors page_mapping) total_pages
      (backwardPass (anchors page_mapping) (interiorPass page_mapping))

/-! ## Basic lookup and insertion lemmas -/

theorem lookupPage_cons (k : Nat) (v : Int) (m : PageMap) (i : Nat) :
    lookupPage ((k, v) :: m) i = if i = k then some v else lookupPage m i := rfl

theorem lookupPage_cons_self (k : Nat) (v : Int) (m : PageMap) :
    lookupPage ((k, v) :: m) k = some v := by simp [lookupPage]

theorem lookupPage_cons_ne {k i : Nat} (v : Int) (m : PageMap) (h : i ≠ k) :
    lookupPage ((k, v) :: m) i = lookupPage m i := by simp [lookupPage, h]

theorem lookupPage_some_mem {m : PageMap} {k : Nat} {v : Int}
    (h : lookupPage m k = some v) : (k, v) ∈ m := by
  induction m with
  | nil => simp [lookupPage] at h
  | cons a rest ih =>
      obtain ⟨k', v'⟩ := a
      rw [lookupPage_cons] at h
      by_cases hk : k = k'
      · simp [hk] at h
        simp [hk, h]
      · simp [hk] at h
        exact List.mem_cons_of_mem _ (ih h)

theorem mem_lookupPage_of_nodup {m : PageMap} {k : Nat} {v : Int}
    (hnd : (m.map Prod.fst).Nodup) (h : (k, v) ∈ m) : lookupPage m k = some v := by
  induction m with
  | nil => simp at h
  | cons a rest ih =>
      obtain ⟨k', v'⟩ := a
      simp only [List.map_cons, List.nodup_cons] at hnd
      rcases List.mem_cons.mp h with h1 | h1
      · rw [← h1]
        exact lookupPage_cons_self k v rest
      · have hk : k ≠ k' := by
          intro hkk
          exact hnd.1 (hkk ▸ (List.mem_map.mpr ⟨(k, v), h1, rfl⟩))
        rw [lookupPage_cons_ne _ _ hk]
        exact ih hnd.2 h1

/-- `m'` keeps every binding `m` resolves: nothing is ever overwritten. -/
def MapExt (m m' : PageMap) : Prop :=
  ∀ k v, lookupPage m k = some v → lookupPage m' k = some v

theorem MapExt.rfl (m : PageMap) : MapExt m m := fun _ _ h => h

theorem MapExt.comp {m1 m2 m3 : PageMap} (h1 : MapExt m1 m2) (h2 : MapExt m2 m3) :
    MapExt m1 m3 := fun k v h => h2 k v (h1 k v h)

theorem mapExt_cons_absent {m : PageMap} {k : Nat} (v : Int)
    (h : lookupPage m k = none) : MapExt m ((k, v) :: m) := by
  intro k' v' h'
  have hk : k' ≠ k := by
    intro he
    rw [he, h] at h'
    exact Option.noConfusion h'
  rwa [lookupPage_cons_ne _ _ hk]

theorem mapExt_insertIfAbsent (m : PageMap) (k : Nat) (v : Int) :
    MapExt m (insertIfAbsent m k v) := by
  unfold insertIfAbsent
  split
  · exact mapExt_cons_absent v (by assumption)
  · exact MapExt.rfl m

theorem lookupPage_insertIfAbsent_ne {m : PageMap} {k i : Nat} (v : Int) (h : i ≠ k) :
    lookupPage (insertIfAbsent m k v) i = lookupPage m i := by
  unfold insertIfAbsent
  split
  · exact lookupPage_cons_ne _ _ h
  · rfl

theorem lookupPage_insertIfAbsent_absent {m : PageMap} {k : Nat} (v : Int)
    (h : lookupPage m k = none) : lookupPage (insertIfAbsent m k v) k = some v := by
  unfold insertIfAbsent
  rw [if_pos h]
  exact lookupPage_cons_self k v m

/-! ## Lemmas about the guarded fill loop `fillLoop` -/

theorem fillLoop_cons (key : Nat → Nat) (val : Nat → Int) (j : Nat) (js : List Nat)
    (interp : PageMap) :
    fillLoop key val (j :: js) interp
      = fillLoop key val js (insertIfAbsent interp (key j) (val j)) := rfl

theorem fillLoop_mapExt (key : Nat → Nat) (val : Nat → Int) (js : List Nat) :
    ∀ interp : PageMap, MapExt interp (fillLoop key val js interp) := by
  induction js with
  | nil => exact fun interp => MapExt.rfl interp
  | cons j js ih =>
      intro interp
      rw [fillLoop_cons]
      exact (mapExt_insertIfAbsent interp (key j) (val j)).comp (ih _)

theorem fillLoop_loc {key : Nat → Nat} {val : Nat → Int} {js : List Nat} {i : Nat}
    (h : ∀ j ∈ js, key j ≠ i) :
    ∀ interp : PageMap, lookupPage (fillLoop key val js interp) i = lookupPage interp i := by
  induction js with
  | nil => intro interp; rfl
  | cons j js ih =>
      intro interp
      rw [fillLoop_cons]
      rw [ih (fun j' hj' => h j' (List.mem_cons_of_mem _ hj'))]
      exact lookupPage_insertIfAbsent_ne _ (Ne.symm (h j (List.mem_cons_self j js)))

theorem fillLoop_hit {key : Nat → Nat} {val : Nat → Int} {js1 js2 : List Nat} {j : Nat}
    {interp : PageMap} (h1 : ∀ j' ∈ js1, key j' ≠ key j)
    (h0 : lookupPage interp (key j) = none) :
    lookupPage (fillLoop key val (js1 ++ j :: js2) interp) (key j) = some (val j) := by
  have hsplit : fillLoop key val (js1 ++ j :: js2) interp
      = fillLoop key val (j :: js2) (fillLoop key val js1 interp) := by
    unfold fillLoop
    exact List.foldl_append ..
  rw [hsplit, fillLoop_cons]
  have hmid : lookupPage (fillLoop key val js1 interp) (key j) = none := by
    rw [fillLoop_loc h1 interp]; exact h0
  exact fillLoop_mapExt key val js2 _ _ _ (lookupPage_insertIfAbsent_absent _ hmid)

theorem fillLoop_vals {key : Nat → Nat} {val : Nat → Int} {js : List Nat}
    (hv : ∀ j ∈ js, 1 ≤ val j) :
    ∀ interp : PageMap, (∀ k v, lookupPage interp k = some v → 1 ≤ v) →
      ∀ k v, lookupPage (fillLoop key val js interp) k = some v → 1 ≤ v := by
  induction js with
  | nil => exact fun interp h => h
  | cons j js ih =>
      intro interp h k v hk
      rw [fillLoop_cons] at hk
      refine ih (fun j' hj' => hv j' (List.mem_cons_of_mem _ hj')) _ ?_ k v hk
      intro k' v' hk'
      unfold insertIfAbsent at hk'
      split at hk'
      · rw [lookupPage_cons] at hk'
        split at hk'
        · cases hk'; exact hv j (List.mem_cons_self j js)
        · exact h k' v' hk'
      · exact h k' v' hk'

/-! ## Lemmas about the one-unnumbered-page loop (`skipStep` fold) -/

theorem skipStep_fst_cases (ps : Nat) (pe : Int) (st : PageMap × Int) (j : Nat) :
    (skipStep ps pe st j).1 = st.1
      ∨ (skipStep ps pe st j).1 = (ps + j, st.2 + 1) :: st.1 := by
  simp only [skipStep]
  split
  · split
    · right; rfl
    · left; rfl
  · left; rfl

theorem skipFold_loc {ps : Nat} {pe : Int} {i : Nat} :
    ∀ (js : List Nat) (st : PageMap × Int), (∀ j ∈ js, ps + j ≠ i) →
      lookupPage (js.foldl (skipStep ps pe) st).1 i = lookupPage st.1 i := by
  intro js
  induction js with
  | nil => intro st _; rfl
  | cons j js ih =>
      intro st h
      rw [List.foldl_cons, ih _ (fun j' hj' => h j' (List.mem_cons_of_mem _ hj'))]
      rcases skipStep_fst_cases ps pe st j with hc | hc
      · rw [hc]
      · rw [hc]
        exact lookupPage_cons_ne _ _ (Ne.symm (h j (List.mem_cons_self j js)))

theorem skipFold_mapExt {ps : Nat} {pe : Int} :
    ∀ (js : List Nat) (st : PageMap × Int),
      MapExt st.1 (js.foldl (skipStep ps pe) st).1 := by
  intro js
  induction js with
  | nil => intro st; exact MapExt.rfl _
  | cons j js ih =>
      intro st
      rw [List.foldl_cons]
      refine MapExt.comp ?_ (ih _)
      simp only [skipStep]
      split
      · split
        · exact mapExt_cons_absent _ (by assumption)
        · exact MapExt.rfl _
      · exact MapExt.rfl _

theorem skipFold_vals {ps : Nat} {pe : Int} :
    ∀ (js : List Nat) (st : PageMap × Int),
      (∀ k v, lookupPage st.1 k = some v → 1 ≤ v) → 0 ≤ st.2 →
      (∀ k v, lookupPage (js.foldl (skipStep ps pe) st).1 k = some v → 1 ≤ v)
        ∧ 0 ≤ (js.foldl (skipStep ps pe) st).2 := by
  intro js
  induction js with
  | nil => intro st h h2; exact ⟨h, h2⟩
  | cons j js ih =>
      intro st h h2
      rw [List.foldl_cons]
      refine ih _ ?_ ?_
      · intro k v hk
        simp only [skipStep] at hk
        split at hk
        · split at hk
          · simp only at hk
            rw [lookupPage_cons] at hk
            split at hk
            · cases hk; omega
            · exact h k v hk
          · exact h k v hk
        · exact h k v hk
      · simp only [skipStep]
        split
        · split
          · simp only; omega
          · exact h2
        · exact h2

theorem skipFold_run (ps n : Nat) (num1 : Int) :
    ∀ t : Nat, t + 1 ≤ n → ∀ interp : PageMap,
      (∀ j, 1 ≤ j → j ≤ n → lookupPage interp (ps + j) = none) →
      ((List.range' 1 t).foldl (skipStep ps (num1 + (n : Int))) (interp, num1)).2
          = num1 + (t : Int)
      ∧ (∀ j, 1 ≤ j → j ≤ t →
          lookupPage ((List.range' 1 t).foldl (skipStep ps (num1 + (n : Int)))
            (interp, num1)).1 (ps + j) = some (num1 + (j : Int)))
      ∧ (∀ i, (∀ j, 1 ≤ j → j ≤ t → i ≠ ps + j) →
          lookupPage ((List.range' 1 t).foldl (skipStep ps (num1 + (n : Int)))
            (interp, num1)).1 i = lookupPage interp i) := by
  intro t
  induction t with
  | zero =>
      intro _ interp _
      refine ⟨by simp, ?_, ?_⟩
      · intro j hj1 hj2; omega
      · intro i _; rfl
  | succ t ih =>
      intro hle interp habs
      have hcat : List.range' 1 (t + 1) = List.range' 1 t ++ [1 + t] := by
        have := @List.range'_concat 1 1 t
        simpa using this
      obtain ⟨ih1, ih2, ih3⟩ := ih (by omega) interp habs
      set F := (List.range' 1 t).foldl (skipStep ps (num1 + (n : Int))) (interp, num1)
        with hF
      have hfold : (List.range' 1 (t + 1)).foldl (skipStep ps (num1 + (n : Int)))
          (interp, num1) = skipStep ps (num1 + (n : Int)) F (1 + t) := by
        rw [hcat, List.foldl_append, List.foldl_cons, List.foldl_nil]
      have hnone : lookupPage F.1 (ps + (1 + t)) = none := by
        rw [ih3 (ps + (1 + t)) (by intro j hj1 hj2; omega)]
        exact habs (1 + t) (by omega) (by omega)
      have hstep : skipStep ps (num1 + (n : Int)) F (1 + t)
          = ((ps + (1 + t), F.2 + 1) :: F.1, F.2 + 1) := by
        simp only [skipStep]
        rw [if_pos hnone, if_pos]
        rw [ih1]
        omega
      rw [hfold, hstep]
      refine ⟨?_, ?_, ?_⟩
      · simp only [ih1]
        push_cast
        ring
      · intro j hj1 hj2
        by_cases hj : j = t + 1
        · subst hj
          have : ps + (1 + t) = ps + (t + 1) := by omega
          rw [← this, lookupPage_cons_self, ih1]
          push_cast
          ring_nf
        · have hj' : j ≤ t := by omega
          simp only
          rw [lookupPage_cons_ne _ _ (by omega)]
          exact ih2 j hj1 hj'
      · intro i hi
        simp only
        rw [lookupPage_cons_ne _ _ (by have := hi (1 + t) (by omega) (by omega); omega)]
        exact ih3 i (fun j hj1 hj2 => hi j hj1 (by omega))

theorem skipFold_spec {ps n : Nat} {num1 : Int} {interp : PageMap} (hn : 1 ≤ n)
    (habs : ∀ j, 1 ≤ j → j ≤ n → lookupPage interp (ps + j) = none) :
    (∀ j, 1 ≤ j → j < n →
      lookupPage ((List.range' 1 n).foldl (skipStep ps (num1 + (n : Int)))
        (interp, num1)).1 (ps + j) = some (num1 + (j : Int)))
    ∧ (∀ i, (∀ j, 1 ≤ j → j < n → i ≠ ps + j) →
      lookupPage ((List.range' 1 n).foldl (skipStep ps (num1 + (n : Int)))
        (interp, num1)).1 i = lookupPage interp i) := by
  obtain ⟨t, rfl⟩ : ∃ t, n = t + 1 := ⟨n - 1, by omega⟩
  have hcat : List.range' 1 (t + 1) = List.range' 1 t ++ [1 + t] := by
    have := @List.range'_concat 1 1 t
    simpa using this
  obtain ⟨ih1, ih2, ih3⟩ := skipFold_run ps (t + 1) num1 t (by omega) interp habs
  set F := (List.range' 1 t).foldl (skipStep ps (num1 + ((t + 1 : Nat) : Int)))
    (interp, num1) with hF
  have hfold : (List.range' 1 (t + 1)).foldl (skipStep ps (num1 + ((t + 1 : Nat) : Int)))
      (interp, num1) = skipStep ps (num1 + ((t + 1 : Nat) : Int)) F (1 + t) := by
    rw [hcat, List.foldl_append, List.foldl_cons, List.foldl_nil]
  have hnone : lookupPage F.1 (ps + (1 + t)) = none := by
    rw [ih3 (ps + (1 + t)) (by intro j hj1 hj2; omega)]
    exact habs (1 + t) (by omega) (by omega)
  have hstep : skipStep ps (num1 + ((t + 1 : Nat) : Int)) F (1 + t) = F := by
    simp only [skipStep]
    rw [if_pos hnone, if_neg]
    rw [ih1]
    push_cast
    omega
  rw [hfold, hstep]
  constructor
  · intro j hj1 hj2
    exact ih2 j hj1 (by omega)
  · intro i hi
    exact ih3 i (fun j hj1 hj2 => hi j hj1 (by omega))

/-! ## Lemmas about the backward-extension loop `backLoop` -/

theorem backLoop_loc (idx0 : Nat) (num0 : Int) :
    ∀ (k : Nat) (interp : PageMap) (i : Nat), k ≤ i →
      lookupPage (backLoop idx0 num0 k interp) i = lookupPage interp i := by
  intro k
  induction k with
  | zero => intro interp i _; rfl
  | succ k ih =>
      intro interp i hi
      simp only [backLoop]
      split
      · rw [ih _ i (by omega)]
        exact lookupPage_cons_ne _ _ (by omega)
      · rfl

theorem backLoop_mapExt (idx0 : Nat) (num0 : Int) :
    ∀ (k : Nat) (interp : PageMap), MapExt interp (backLoop idx0 num0 k interp) := by
  intro k
  induction k with
  | zero => intro interp; exact MapExt.rfl _
  | succ k ih =>
      intro interp
      simp only [backLoop]
      split
      · rename_i h
        exact (mapExt_cons_absent _ h.2).comp (ih _)
      · exact MapExt.rfl _

theorem backLoop_vals (idx0 : Nat) (num0 : Int) :
    ∀ (k : Nat) (interp : PageMap),
      (∀ k' v, lookupPage interp k' = some v → 1 ≤ v) →
      ∀ k' v, lookupPage (backLoop idx0 num0 k interp) k' = some v → 1 ≤ v := by
  intro k
  induction k with
  | zero => intro interp h; exact h
  | succ k ih =>
      intro interp h
      simp only [backLoop]
      split
      · rename_i hg
        refine ih _ ?_
        intro k' v hk'
        rw [lookupPage_cons] at hk'
        split at hk'
        · cases hk'; exact hg.1
        · exact h k' v hk'
      · exact h

theorem backLoop_fill (idx0 : Nat) (num0 : Int) :
    ∀ (k : Nat) (interp : PageMap) (idx : Nat), idx < k →
      (∀ j, idx ≤ j → j < k →
        1 ≤ num0 - ((idx0 : Int) - (j : Int)) ∧ lookupPage interp j = none) →
      lookupPage (backLoop idx0 num0 k interp) idx
        = some (num0 - ((idx0 : Int) - (idx : Int))) := by
  intro k
  induction k with
  | zero => intro interp idx h; omega
  | succ k ih =>
      intro interp idx hlt hall
      have hk := hall k (by omega) (by omega)
      simp only [backLoop]
      rw [if_pos ⟨hk.1, hk.2⟩]
      by_cases hidx : idx = k
      · rw [hidx, backLoop_loc idx0 num0 k _ k (by omega)]
        exact lookupPage_cons_self ..
      · refine ih _ idx (by omega) ?_
        intro j hj1 hj2
        refine ⟨(hall j hj1 (by omega)).1, ?_⟩
        rw [lookupPage_cons_ne _ _ (by omega)]
        exact (hall j hj1 (by omega)).2

theorem backLoop_break (idx0 : Nat) (num0 : Int) :
    ∀ (k : Nat) (interp : PageMap) (idx : Nat), idx < k →
      (∃ j, idx ≤ j ∧ j < k ∧
        ¬(1 ≤ num0 - ((idx0 : Int) - (j : Int)) ∧ lookupPage interp j = none)) →
      lookupPage (backLoop idx0 num0 k interp) idx = lookupPage interp idx := by
  intro k
  induction k with
  | zero => intro interp idx h; omega
  | succ k ih =>
      intro interp idx hlt hex
      obtain ⟨j, hj1, hj2, hj3⟩ := hex
      simp only [backLoop]
      split
      · rename_i hg
        have hjk : j ≠ k := by
          intro he
          exact hj3 (he ▸ ⟨hg.1, hg.2⟩)
        rw [ih _ idx (by omega) ⟨j, hj1, by omega, ?_⟩]
        · exact lookupPage_cons_ne _ _ (by omega)
        · intro hc
          refine hj3 ⟨hc.1, ?_⟩
          have := hc.2
          rwa [lookupPage_cons_ne _ _ (by omega)] at this
      · rfl

/-! ## Lemmas about `fillPair` (the interior-gap loop body) -/

theorem range'_split {s n j : Nat} (h1 : s ≤ j) (h2 : j < s + n) :
    List.range' s n = List.range' s (j - s) ++ j :: List.range' (j + 1) (s + n - (j + 1)) := by
  have e2 := List.range'_append s (j - s) (s + n - (j + 1) + 1) 1
  have e3 : s + 1 * (j - s) = j := by omega
  rw [e3] at e2
  have e4 := List.range'_succ j (s + n - (j + 1)) 1
  rw [e4] at e2
  have e5 : s + n - (j + 1) + 1 + (j - s) = n := by omega
  rw [e5] at e2
  exact e2.symm

theorem fillPair_loc {i : Nat} (pq : (Nat × Int) × (Nat × Int))
    (h : ¬(pq.1.1 < i ∧ i < pq.2.1)) (interp : PageMap) :
    lookupPage (fillPair interp pq) i = lookupPage interp i := by
  obtain ⟨⟨idx1, num1⟩, idx2, num2⟩ := pq
  simp only at h
  simp only [fillPair]
  split
  · rename_i hg
    split
    · apply fillLoop_loc
      intro j hj
      rw [List.mem_range'_1] at hj
      omega
    · split
      · apply skipFold_loc
        intro j hj
        rw [List.mem_range'_1] at hj
        omega
      · rfl
  · rfl

theorem fillPair_mapExt (interp : PageMap) (pq : (Nat × Int) × (Nat × Int)) :
    MapExt interp (fillPair interp pq) := by
  obtain ⟨⟨idx1, num1⟩, idx2, num2⟩ := pq
  simp only [fillPair]
  split
  · split
    · exact fillLoop_mapExt _ _ _ interp
    · split
      · exact skipFold_mapExt (List.range' 1 (idx2 - idx1 - 1)) (interp, num1)
      · exact MapExt.rfl _
  · exact MapExt.rfl _

theorem fillPair_id_of_unhandled {idx1 idx2 : Nat} {num1 num2 : Int}
    (h : ¬(1 < idx2 - idx1 ∧ idx2 - idx1 ≤ 10 ∧
        (num2 - num1 = ((idx2 - idx1 : Nat) : Int)
          ∨ num2 - num1 = ((idx2 - idx1 : Nat) : Int) - 1)))
    (interp : PageMap) : fillPair interp ((idx1, num1), (idx2, num2)) = interp := by
  simp only [fillPair]
  split
  · rename_i hg
    split
    · rename_i hpg
      exact absurd ⟨hg.1, hg.2.1, Or.inl hpg⟩ h
    · split
      · rename_i hpg
        exact absurd ⟨hg.1, hg.2.1, Or.inr hpg⟩ h
      · rfl
  · rfl

theorem fillPair_perfect {idx1 idx2 : Nat} {num1 num2 : Int} {interp : PageMap}
    (hgap1 : 1 < idx2 - idx1) (hgap2 : idx2 - idx1 ≤ 10)
    (hpg : num2 - num1 = ((idx2 - idx1 : Nat) : Int))
    (habs : ∀ j, 1 ≤ j → j < idx2 - idx1 → lookupPage interp (idx1 + j) = none) :
    ∀ j, 1 ≤ j → j < idx2 - idx1 →
      lookupPage (fillPair interp ((idx1, num1), (idx2, num2))) (idx1 + j)
        = some (num1 + (j : Int)) := by
  intro j hj1 hj2
  simp only [fillPair]
  rw [if_pos ⟨hgap1, hgap2, by omega, by omega⟩, if_pos hpg]
  have hsplit : List.range' 1 (idx2 - idx1 - 1)
      = List.range' 1 (j - 1) ++ j :: List.range' (j + 1) (1 + (idx2 - idx1 - 1) - (j + 1)) :=
    range'_split (by omega) (by omega)
  rw [hsplit]
  exact fillLoop_hit
    (fun j' hj' => by
      rw [List.mem_range'_1] at hj'
      show idx1 + j' ≠ idx1 + j
      omega)
    (habs j hj1 hj2)

theorem fillPair_skip {idx1 idx2 : Nat} {num1 num2 : Int} {interp : PageMap}
    (hgap1 : 1 < idx2 - idx1) (hgap2 : idx2 - idx1 ≤ 10)
    (hpg : num2 - num1 = ((idx2 - idx1 : Nat) : Int) - 1)
    (habs : ∀ j, 1 ≤ j → j < idx2 - idx1 → lookupPage interp (idx1 + j) = none) :
    (∀ j, 1 ≤ j → j < idx2 - idx1 - 1 →
      lookupPage (fillPair interp ((idx1, num1), (idx2, num2))) (idx1 + j)
        = some (num1 + (j : Int)))
    ∧ lookupPage (fillPair interp ((idx1, num1), (idx2, num2)))
        (idx1 + (idx2 - idx1 - 1)) = none := by
  simp only [fillPair]
  rw [if_pos ⟨hgap1, hgap2, by omega, by omega⟩, if_neg (by omega), if_pos hpg]
  have hpe : num2 = num1 + ((idx2 - idx1 - 1 : Nat) : Int) := by omega
  rw [hpe]
  have hspec := @skipFold_spec idx1 (idx2 - idx1 - 1) num1 interp
    (by omega) (fun j hj1 hj2 => habs j hj1 (by omega))
  refine ⟨fun j hj1 hj2 => hspec.1 j hj1 (by omega), ?_⟩
  rw [hspec.2 (idx1 + (idx2 - idx1 - 1)) (fun j hj1 hj2 => by omega)]
  exact habs (idx2 - idx1 - 1) (by omega) (by omega)

/-! ## Order facts about `anchors` and `consecPairs` -/

instance : IsTotal (Nat × Int) (fun a b => a.1 ≤ b.1) :=
  ⟨fun a b => Nat.le_total a.1 b.1⟩

instance : IsTrans (Nat × Int) (fun a b => a.1 ≤ b.1) :=
  ⟨fun _ _ _ h1 h2 => Nat.le_trans h1 h2⟩

theorem anchors_perm (m : PageMap) : List.Perm (anchors m) m := List.perm_insertionSort _ m

theorem anchors_sorted_le (m : PageMap) :
    List.Pairwise (fun a b : Nat × Int => a.1 ≤ b.1) (anchors m) :=
  List.sorted_insertionSort _ m

theorem anchors_keys_nodup {m : PageMap} (hnd : (m.map Prod.fst).Nodup) :
    ((anchors m).map Prod.fst).Nodup :=
  ((anchors_perm m).map Prod.fst).nodup_iff.mpr hnd

theorem anchors_pairwise_lt {m : PageMap} (hnd : (m.map Prod.fst).Nodup) :
    List.Pairwise (fun a b : Nat × Int => a.1 < b.1) (anchors m) := by
  have hle := anchors_sorted_le m
  have hne : List.Pairwise (fun a b : Nat × Int => a.1 ≠ b.1) (anchors m) :=
    List.pairwise_map.mp (anchors_keys_nodup hnd)
  exact (hle.and hne).imp (fun h => lt_of_le_of_ne h.1 h.2)

theorem anchors_nil : anchors ([] : PageMap) = [] := rfl

theorem consecPairs_cons_cons (a b : Nat × Int) (rest : List (Nat × Int)) :
    consecPairs (a :: b :: rest) = (a, b) :: consecPairs (b :: rest) := rfl

theorem consecPairs_mem : ∀ {l : List (Nat × Int)} {p : (Nat × Int) × (Nat × Int)},
    p ∈ consecPairs l → p.1 ∈ l ∧ p.2 ∈ l := by
  intro l
  induction l with
  | nil => intro p h; simp [consecPairs] at h
  | cons a l ih =>
      intro p h
      cases l with
      | nil => simp [consecPairs] at h
      | cons b rest =>
          rw [consecPairs_cons_cons] at h
          rcases List.mem_cons.mp h with h | h
          · rw [h]
            exact ⟨List.mem_cons_self .., List.mem_cons_of_mem _ (List.mem_cons_self ..)⟩
          · have hin := ih h
            exact ⟨List.mem_cons_of_mem _ hin.1, List.mem_cons_of_mem _ hin.2⟩

theorem consecPairs_lt : ∀ {l : List (Nat × Int)},
    List.Pairwise (fun a b : Nat × Int => a.1 < b.1) l →
    ∀ {p : (Nat × Int) × (Nat × Int)}, p ∈ consecPairs l → p.1.1 < p.2.1 := by
  intro l
  induction l with
  | nil => intro _ p h; simp [consecPairs] at h
  | cons a l ih =>
      intro hs p h
      cases l with
      | nil => simp [consecPairs] at h
      | cons b rest =>
          rw [consecPairs_cons_cons] at h
          rcases List.mem_cons.mp h with h | h
          · rw [h]
            exact (List.pairwise_cons.mp hs).1 b (List.mem_cons_self ..)
          · exact ih (List.pairwise_cons.mp hs).2 h

theorem consecPairs_chain : ∀ {l : List (Nat × Int)},
    List.Pairwise (fun a b : Nat × Int => a.1 < b.1) l →
    List.Pairwise (fun p q : (Nat × Int) × (Nat × Int) => p.2.1 ≤ q.1.1) (consecPairs l) := by
  intro l
  induction l with
  | nil => intro _; simp [consecPairs]
  | cons a l ih =>
      intro hs
      cases l with
      | nil => simp [consecPairs]
      | cons b rest =>
          rw [consecPairs_cons_cons]
          obtain ⟨_, hs'⟩ := List.pairwise_cons.mp hs
          refine List.pairwise_cons.mpr ⟨?_, ih hs'⟩
          intro q hq
          have hq1 := (consecPairs_mem hq).1
          rcases List.mem_cons.mp hq1 with h | h
          · rw [h]
          · exact le_of_lt ((List.pairwise_cons.mp hs').1 _ h)

theorem consecPairs_no_key_between : ∀ {l : List (Nat × Int)},
    List.Pairwise (fun a b : Nat × Int => a.1 < b.1) l →
    ∀ {p : (Nat × Int) × (Nat × Int)}, p ∈ consecPairs l →
    ∀ {c : Nat × Int}, c ∈ l → ¬(p.1.1 < c.1 ∧ c.1 < p.2.1) := by
  intro l
  induction l with
  | nil => intro _ p h; simp [consecPairs] at h
  | cons a l ih =>
      intro hs p hp c hc
      cases l with
      | nil => simp [consecPairs] at hp
      | cons b rest =>
          obtain ⟨ha, hs'⟩ := List.pairwise_cons.mp hs
          rw [consecPairs_cons_cons] at hp
          rcases List.mem_cons.mp hp with h | h
          · rw [h]
            rcases List.mem_cons.mp hc with h1 | h1
            · rw [h1]
              simp only
              omega
            · rcases List.mem_cons.mp h1 with h2 | h2
              · rw [h2]
                simp only
                omega
              · have := (List.pairwise_cons.mp hs').1 c h2
                simp only
                omega
          · rcases List.mem_cons.mp hc with h1 | h1
            · have hp1 : p.1 ∈ b :: rest := (consecPairs_mem h).1
              have := ha p.1 hp1
              rw [h1]
              omega
            · exact ih hs' h h1

theorem pairwise_head_min {a : Nat × Int} {l : List (Nat × Int)}
    (hs : List.Pairwise (fun a b : Nat × Int => a.1 < b.1) (a :: l)) :
    ∀ {x : Nat × Int}, x ∈ a :: l → a.1 ≤ x.1 := by
  intro x hx
  rcases List.mem_cons.mp hx with h | h
  · rw [h]
  · exact le_of_lt ((List.pairwise_cons.mp hs).1 x h)

theorem pairwise_last_max : ∀ {l : List (Nat × Int)},
    List.Pairwise (fun a b : Nat × Int => a.1 < b.1) l →
    ∀ {y : Nat × Int}, l.getLast? = some y → ∀ {x : Nat × Int}, x ∈ l → x.1 ≤ y.1 := by
  intro l
  induction l with
  | nil => intro _ y hy; simp at hy
  | cons a l ih =>
      intro hs y hy x hx
      cases l with
      | nil =>
          simp at hy
          rcases List.mem_cons.mp hx with h | h
          · rw [h, ← hy]
          · simp at h
      | cons b rest =>
          have hy' : (b :: rest).getLast? = some y := by
            rw [← hy]
            exact (List.getLast?_cons_cons ..).symm
          obtain ⟨ha, hs'⟩ := List.pairwise_cons.mp hs
          rcases List.mem_cons.mp hx with h | h
          · have hym : y ∈ b :: rest := List.mem_of_mem_getLast? hy'
            have := ha y hym
            rw [h]
            omega
          · exact ih hs' hy' h

/-! ## Pass-level locality and the interior-gap transfer lemma -/

theorem foldl_fillPair_loc {i : Nat} :
    ∀ (L : List ((Nat × Int) × (Nat × Int))),
      (∀ q ∈ L, ∀ ip : PageMap, lookupPage (fillPair ip q) i = lookupPage ip i) →
      ∀ ip : PageMap, lookupPage (L.foldl fillPair ip) i = lookupPage ip i := by
  intro L
  induction L with
  | nil => intro _ ip; rfl
  | cons q L ih =>
      intro h ip
      rw [List.foldl_cons, ih (fun q' hq' => h q' (List.mem_cons_of_mem _ hq')),
        h q (List.mem_cons_self ..)]

theorem foldl_fillPair_mapExt :
    ∀ (L : List ((Nat × Int) × (Nat × Int))) (ip : PageMap),
      MapExt ip (L.foldl fillPair ip) := by
  intro L
  induction L with
  | nil => intro ip; exact MapExt.rfl _
  | cons q L ih =>
      intro ip
      rw [List.foldl_cons]
      exact (fillPair_mapExt ip q).comp (ih _)

theorem backwardPass_loc {a0 : Nat × Int} {arest : PageMap} {i : Nat}
    (hi : a0.1 ≤ i) (X : PageMap) :
    lookupPage (backwardPass (a0 :: arest) X) i = lookupPage X i := by
  obtain ⟨idx0, num0⟩ := a0
  simp only [backwardPass]
  split
  · exact backLoop_loc idx0 num0 idx0 X i hi
  · rfl

theorem backwardPass_mapExt (as : PageMap) (X : PageMap) :
    MapExt X (backwardPass as X) := by
  cases as with
  | nil => exact MapExt.rfl _
  | cons a0 arest =>
      obtain ⟨idx0, num0⟩ := a0
      simp only [backwardPass]
      split
      · exact backLoop_mapExt idx0 num0 idx0 X
      · exact MapExt.rfl _

theorem forwardPass_loc {as : PageMap} {total i : Nat}
    (h : ∀ y : Nat × Int, as.getLast? = some y → i ≤ y.1) (X : PageMap) :
    lookupPage (forwardPass as total X) i = lookupPage X i := by
  cases hl : as.getLast? with
  | none => simp only [forwardPass, hl]
  | some y =>
      obtain ⟨idxN, numN⟩ := y
      cases hp : as.dropLast.getLast? with
      | none => simp only [forwardPass, hl, hp]
      | some p =>
          obtain ⟨idxP, numP⟩ := p
          simp only [forwardPass, hl, hp]
          split
          · apply fillLoop_loc
            intro j hj
            rw [List.mem_range'_1] at hj
            have := h (idxN, numN) hl
            simp only at this
            omega
          · rfl

theorem forwardPass_mapExt (as : PageMap) (total : Nat) (X : PageMap) :
    MapExt X (forwardPass as total X) := by
  cases hl : as.getLast? with
  | none => simp only [forwardPass, hl]; exact MapExt.rfl _
  | some y =>
      obtain ⟨idxN, numN⟩ := y
      cases hp : as.dropLast.getLast? with
      | none => simp only [forwardPass, hl, hp]; exact MapExt.rfl _
      | some p =>
          obtain ⟨idxP, numP⟩ := p
          simp only [forwardPass, hl, hp]
          split
          · exact fillLoop_mapExt _ _ _ X
          · exact MapExt.rfl _

theorem interpolate_eq_passes {m : PageMap} (hm : m ≠ []) (total : Nat) :
    interpolate_missing_pages m total
      = forwardPass (anchors m) total (backwardPass (anchors m) (interiorPass m)) := by
  simp only [interpolate_missing_pages, if_neg hm]

theorem nonempty_of_consecPairs_mem {m : PageMap} {pq : (Nat × Int) × (Nat × Int)}
    (hmem : pq ∈ consecPairs (anchors m)) : m ≠ [] := by
  intro he
  rw [he, anchors_nil] at hmem
  simp [consecPairs] at hmem

/-- Evaluating the full interpolation at an interior index of a consecutive
anchor pair reduces to evaluating that pair's own gap-filling body on a map
in which the whole interior is still unmapped: earlier and later pairs only
write inside their own (disjoint) interiors, and the backward and forward
extensions only write strictly below the first anchor and strictly above the
last anchor, respectively. -/
theorem interior_transfer {m : PageMap} (hnd : (m.map Prod.fst).Nodup)
    {pq : (Nat × Int) × (Nat × Int)} (hmem : pq ∈ consecPairs (anchors m)) (total : Nat) :
    ∃ w : PageMap,
      (∀ j, pq.1.1 < j → j < pq.2.1 → lookupPage w j = none)
      ∧ (∀ i, pq.1.1 < i → i < pq.2.1 →
          lookupPage (interpolate_missing_pages m total) i = lookupPage (fillPair w pq) i) := by
  have hplt := anchors_pairwise_lt hnd
  have hlt := consecPairs_lt hplt hmem
  obtain ⟨l1, l2, hdec⟩ := List.append_of_mem hmem
  have hchain := consecPairs_chain hplt
  rw [hdec, List.pairwise_append] at hchain
  obtain ⟨_, hc2, hc12⟩ := hchain
  have hl1le : ∀ q ∈ l1, q.2.1 ≤ pq.1.1 :=
    fun q hq => hc12 q hq pq (List.mem_cons_self ..)
  have hl2ge : ∀ q ∈ l2, pq.2.1 ≤ q.1.1 :=
    fun q hq => (List.pairwise_cons.mp hc2).1 q hq
  have hmnone : ∀ j, pq.1.1 < j → j < pq.2.1 → lookupPage m j = none := by
    intro j h1 h2
    cases hv : lookupPage m j with
    | none => rfl
    | some v =>
        have hjm : (j, v) ∈ anchors m := (anchors_perm m).mem_iff.mpr (lookupPage_some_mem hv)
        exact absurd ⟨h1, h2⟩ (consecPairs_no_key_between hplt hmem hjm)
  have hwnone : ∀ j, pq.1.1 < j → j < pq.2.1 → lookupPage (l1.foldl fillPair m) j = none := by
    intro j h1 h2
    rw [foldl_fillPair_loc l1
      (fun q hq ip => fillPair_loc q (by have := hl1le q hq; omega) ip) m]
    exact hmnone j h1 h2
  refine ⟨l1.foldl fillPair m, hwnone, ?_⟩
  intro i h1 h2
  have hmne : m ≠ [] := nonempty_of_consecPairs_mem hmem
  rw [interpolate_eq_passes hmne total]
  have hifold : interiorPass m = l2.foldl fillPair (fillPair (l1.foldl fillPair m) pq) := by
    rw [interiorPass, hdec, List.foldl_append, List.foldl_cons]
  obtain ⟨a0, arest, hshape⟩ : ∃ a0 arest, anchors m = a0 :: arest := by
    cases hs : anchors m with
    | nil => rw [hs] at hdec; simp [consecPairs] at hdec
    | cons a0 arest => exact ⟨a0, arest, rfl⟩
  have ha0 : a0.1 ≤ pq.1.1 := by
    rw [hshape] at hplt
    exact pairwise_head_min hplt (hshape ▸ (consecPairs_mem hmem).1)
  have hfw : ∀ y : Nat × Int, (anchors m).getLast? = some y → i ≤ y.1 := by
    intro y hy
    have := pairwise_last_max hplt hy ((consecPairs_mem hmem).2)
    omega
  rw [forwardPass_loc hfw, hshape,
    backwardPass_loc (by omega) _, hifold,
    foldl_fillPair_loc l2
      (fun q hq ip => fillPair_loc q (by have := hl2ge q hq; omega) ip) _]

/-! ## Claim theorems: interpolation -/

/-- C1: for every detected page-number map and every total page count, the map
returned by `interpolate_missing_pages`, restricted to the keys of the input,
equals the input: interpolation never overwrites an existing (detected) entry
and only adds entries at page indices absent from the input. -/
theorem interpolate_missing_pages_preserves_detected
    (m : PageMap) (total_pages k : Nat) (v : Int) (h : lookupPage m k = some v) :
    lookupPage (interpolate_missing_pages m total_pages) k = some v := by
  by_cases hm : m = []
  · rw [hm] at h ⊢
    simpa [interpolate_missing_pages] using h
  · rw [interpolate_eq_passes hm]
    have h1 : MapExt m (interiorPass m) := foldl_fillPair_mapExt (consecPairs (anchors m)) m
    have h2 := backwardPass_mapExt (anchors m) (interiorPass m)
    have h3 := forwardPass_mapExt (anchors m) total_pages
      (backwardPass (anchors m) (interiorPass m))
    exact h3 k v (h2 k v (h1 k v h))

theorem interpolate_missing_pages_preserves_detected_witness :
    lookupPage (interpolate_missing_pages [(0, 10), (5, 15)] 6) 5 = some 15 :=
  interpolate_missing_pages_preserves_detected [(0, 10), (5, 15)] 6 5 15 (by decide)

/-- C2: the interior-gap pass adds entries between a consecutive anchor pair
only when `1 < phys_gap ≤ 10` and `page_gap ∈ {phys_gap, phys_gap - 1}`; for
every other gap relationship (such as `page_gap = phys_gap + 1`,
`phys_gap - 2`, `phys_gap + 2`, or `phys_gap > 10`) every interior index
between that pair is left unfilled by this pass. -/
theorem interiorPass_unhandled_gap_unfilled
    (m : PageMap) (idx1 idx2 : Nat) (num1 num2 : Int)
    (hnd : (m.map Prod.fst).Nodup)
    (hmem : ((idx1, num1), (idx2, num2)) ∈ consecPairs (anchors m))
    (hcond : ¬(1 < (idx2 : Int) - (idx1 : Int) ∧ (idx2 : Int) - (idx1 : Int) ≤ 10 ∧
        (num2 - num1 = (idx2 : Int) - (idx1 : Int)
          ∨ num2 - num1 = (idx2 : Int) - (idx1 : Int) - 1))) :
    ∀ i, idx1 < i → i < idx2 → lookupPage (interiorPass m) i = none := by
  intro i h1 h2
  have hplt := anchors_pairwise_lt hnd
  have hlt : idx1 < idx2 := consecPairs_lt hplt hmem
  obtain ⟨l1, l2, hdec⟩ := List.append_of_mem hmem
  have hchain := consecPairs_chain hplt
  rw [hdec, List.pairwise_append] at hchain
  obtain ⟨_, hc2, hc12⟩ := hchain
  have hl1le : ∀ q ∈ l1, q.2.1 ≤ idx1 :=
    fun q hq => hc12 q hq ((idx1, num1), (idx2, num2)) (List.mem_cons_self ..)
  have hl2ge : ∀ q ∈ l2, idx2 ≤ q.1.1 :=
    fun q hq => (List.pairwise_cons.mp hc2).1 q hq
  have hmnone : lookupPage m i = none := by
    cases hv : lookupPage m i with
    | none => rfl
    | some v =>
        have hjm : (i, v) ∈ anchors m :=
          (anchors_perm m).mem_iff.mpr (lookupPage_some_mem hv)
        exact absurd ⟨h1, h2⟩ (consecPairs_no_key_between hplt hmem hjm)
  have hid : ∀ ip : PageMap, fillPair ip ((idx1, num1), (idx2, num2)) = ip :=
    fillPair_id_of_unhandled (by omega)
  rw [interiorPass, hdec, List.foldl_append, List.foldl_cons,
    foldl_fillPair_loc l2 (fun q hq ip =>
      fillPair_loc q (by have := hl2ge q hq; omega) ip) _,
    hid, foldl_fillPair_loc l1 (fun q hq ip =>
      fillPair_loc q (by have := hl1le q hq; omega) ip) m]
  exact hmnone

theorem interiorPass_unhandled_gap_unfilled_witness :
    lookupPage (interiorPass [(0, 10), (3, 14)]) 1 = none
      ∧ lookupPage (interiorPass [(0, 10), (3, 14)]) 2 = none :=
  ⟨interiorPass_unhandled_gap_unfilled [(0, 10), (3, 14)] 0 3 10 14 (by decide) (by decide)
      (by decide) 1 (by decide) (by decide),
    interiorPass_unhandled_gap_unfilled [(0, 10), (3, 14)] 0 3 10 14 (by decide) (by decide)
      (by decide) 2 (by decide) (by decide)⟩

/-- C3: for every pair of consecutive anchors with `page_gap = phys_gap - 1`
and `1 < phys_gap ≤ 10`, interpolation walks the interior indices in order,
assigning each the next sequential printed number while the candidate stays
strictly below `num2` (so interior index `idx1 + j` receives `num1 + j` for
`1 ≤ j ≤ phys_gap - 2`), and leaves the remaining interior page `idx2 - 1`
unfilled; in particular, for anchors at physical indices 0 and 4 with printed
numbers 10 and 13, index 1 is assigned 11, index 2 is assigned 12, and
index 3 is left unfilled. -/
theorem interpolate_one_unnumbered_gap_walk :
    (∀ (m : PageMap) (total_pages idx1 idx2 : Nat) (num1 num2 : Int),
      (m.map Prod.fst).Nodup →
      ((idx1, num1), (idx2, num2)) ∈ consecPairs (anchors m) →
      1 < (idx2 : Int) - (idx1 : Int) → (idx2 : Int) - (idx1 : Int) ≤ 10 →
      num2 - num1 = (idx2 : Int) - (idx1 : Int) - 1 →
      (∀ j, 1 ≤ j → j < idx2 - idx1 - 1 →
        lookupPage (interpolate_missing_pages m total_pages) (idx1 + j)
          = some (num1 + (j : Int)))
      ∧ lookupPage (interpolate_missing_pages m total_pages) (idx2 - 1) = none)
    ∧ lookupPage (interpolate_missing_pages [(0, 10), (4, 13)] 5) 1 = some 11
    ∧ lookupPage (interpolate_missing_pages [(0, 10), (4, 13)] 5) 2 = some 12
    ∧ lookupPage (interpolate_missing_pages [(0, 10), (4, 13)] 5) 3 = none := by
  refine ⟨?_, by decide, by decide, by decide⟩
  intro m total_pages idx1 idx2 num1 num2 hnd hmem hg1 hg2 hpg
  have hlt : idx1 < idx2 := consecPairs_lt (anchors_pairwise_lt hnd) hmem
  obtain ⟨w, hwnone', htrans'⟩ := interior_transfer hnd hmem total_pages
  have hwnone : ∀ j, idx1 < j → j < idx2 → lookupPage w j = none := hwnone'
  have htrans : ∀ i, idx1 < i → i < idx2 →
      lookupPage (interpolate_missing_pages m total_pages) i
        = lookupPage (fillPair w ((idx1, num1), (idx2, num2))) i := htrans'
  have hskip := @fillPair_skip idx1 idx2 num1 num2 w (by omega) (by omega) (by omega)
    (fun j hj1 hj2 => hwnone (idx1 + j) (by omega) (by omega))
  constructor
  · intro j hj1 hj2
    rw [htrans (idx1 + j) (by omega) (by omega)]
    exact hskip.1 j hj1 hj2
  · have he : idx2 - 1 = idx1 + (idx2 - idx1 - 1) := by omega
    rw [he, htrans (idx1 + (idx2 - idx1 - 1)) (by omega) (by omega)]
    exact hskip.2

theorem interpolate_one_unnumbered_gap_walk_witness :
    lookupPage (interpolate_missing_pages [(0, 20), (5, 24)] 6) 2 = some 22 := by
  have h := (interpolate_one_unnumbered_gap_walk.1 [(0, 20), (5, 24)] 6 0 5 20 24
    (by decide) (by decide) (by decide) (by decide) (by decide)).1 2 (by decide) (by decide)
  simpa using h

/-- C4: for every pair of consecutive anchors with `page_gap = phys_gap` and
`1 < phys_gap ≤ 10`, interpolation assigns each interior page index `idx1 + j`
(for `0 < j < phys_gap`) the printed number `num1 + j`; in particular, for
anchors at physical indices 0 and 5 with printed numbers 10 and 15, interior
indices 1 through 4 are assigned 11, 12, 13, 14. -/
theorem interpolate_perfect_gap_fill :
    (∀ (m : PageMap) (total_pages idx1 idx2 : Nat) (num1 num2 : Int),
      (m.map Prod.fst).Nodup →
      ((idx1, num1), (idx2, num2)) ∈ consecPairs (anchors m) →
      1 < (idx2 : Int) - (idx1 : Int) → (idx2 : Int) - (idx1 : Int) ≤ 10 →
      num2 - num1 = (idx2 : Int) - (idx1 : Int) →
      ∀ j, 1 ≤ j → j < idx2 - idx1 →
        lookupPage (interpolate_missing_pages m total_pages) (idx1 + j)
          = some (num1 + (j : Int)))
    ∧ lookupPage (interpolate_missing_pages [(0, 10), (5, 15)] 6) 1 = some 11
    ∧ lookupPage (interpolate_missing_pages [(0, 10), (5, 15)] 6) 2 = some 12
    ∧ lookupPage (interpolate_missing_pages [(0, 10), (5, 15)] 6) 3 = some 13
    ∧ lookupPage (interpolate_missing_pages [(0, 10), (5, 15)] 6) 4 = some 14 := by
  refine ⟨?_, by decide, by decide, by decide, by decide⟩
  intro m total_pages idx1 idx2 num1 num2 hnd hmem hg1 hg2 hpg
  have hlt : idx1 < idx2 := consecPairs_lt (anchors_pairwise_lt hnd) hmem
  obtain ⟨w, hwnone', htrans'⟩ := interior_transfer hnd hmem total_pages
  have hwnone : ∀ j, idx1 < j → j < idx2 → lookupPage w j = none := hwnone'
  have htrans : ∀ i, idx1 < i → i < idx2 →
      lookupPage (interpolate_missing_pages m total_pages) i
        = lookupPage (fillPair w ((idx1, num1), (idx2, num2))) i := htrans'
  intro j hj1 hj2
  rw [htrans (idx1 + j) (by omega) (by omega)]
  exact @fillPair_perfect idx1 idx2 num1 num2 w (by omega) (by omega) (by omega)
    (fun j' hj1' hj2' => hwnone (idx1 + j') (by omega) (by omega)) j hj1 hj2

theorem interpolate_perfect_gap_fill_witness :
    lookupPage (interpolate_missing_pages [(2, 100), (6, 104)] 8) 4 = some 102 := by
  have h := interpolate_perfect_gap_fill.1 [(2, 100), (6, 104)] 8 2 6 100 104
    (by decide) (by decide) (by decide) (by decide) (by decide) 2 (by decide) (by decide)
  simpa using h

/-- C5: backward extension fires exactly when the first anchor `(idx0, num0)`
satisfies `num0 > 1` and `num0 - 1 ≤ idx0`; when it fires it walks the page
indices before `idx0` in decreasing order, assigning each unmapped index `idx`
the number `num0 - (idx0 - idx)`, and stops at the first index already mapped
or whose inferred number would drop below 1. In particular, for a single
anchor at physical index 3 with printed number 5, backward extension does not
fire and physical indices 0 through 2 remain unmapped. -/
theorem backward_extension_spec :
    (∀ (idx0 : Nat) (num0 : Int) (rest interp : PageMap),
      ¬(1 < num0 ∧ num0 - 1 ≤ (idx0 : Int)) →
      backwardPass ((idx0, num0) :: rest) interp = interp)
    ∧ (∀ (idx0 : Nat) (num0 : Int) (rest interp : PageMap) (idx : Nat),
      (1 < num0 ∧ num0 - 1 ≤ (idx0 : Int)) → idx < idx0 →
      (∀ j, idx ≤ j → j < idx0 →
        1 ≤ num0 - ((idx0 : Int) - (j : Int)) ∧ lookupPage interp j = none) →
      lookupPage (backwardPass ((idx0, num0) :: rest) interp) idx
        = some (num0 - ((idx0 : Int) - (idx : Int))))
    ∧ (∀ (idx0 : Nat) (num0 : Int) (rest interp : PageMap) (idx : Nat),
      (1 < num0 ∧ num0 - 1 ≤ (idx0 : Int)) → idx < idx0 →
      (∃ j, idx ≤ j ∧ j < idx0 ∧
        ¬(1 ≤ num0 - ((idx0 : Int) - (j : Int)) ∧ lookupPage interp j = none)) →
      lookupPage (backwardPass ((idx0, num0) :: rest) interp) idx
        = lookupPage interp idx)
    ∧ lookupPage (interpolate_missing_pages [(3, 5)] 4) 0 = none
    ∧ lookupPage (interpolate_missing_pages [(3, 5)] 4) 1 = none
    ∧ lookupPage (interpolate_missing_pages [(3, 5)] 4) 2 = none := by
  refine ⟨?_, ?_, ?_, by decide, by decide, by decide⟩
  · intro idx0 num0 rest interp hcond
    simp only [backwardPass]
    rw [if_neg hcond]
  · intro idx0 num0 rest interp idx hcond hidx hall
    simp only [backwardPass]
    rw [if_pos hcond]
    exact backLoop_fill idx0 num0 idx0 interp idx hidx hall
  · intro idx0 num0 rest interp idx hcond hidx hex
    simp only [backwardPass]
    rw [if_pos hcond]
    exact backLoop_break idx0 num0 idx0 interp idx hidx hex

theorem backward_extension_spec_witness :
    lookupPage (backwardPass [(3, 4)] [(3, 4)]) 1 = some 2
      ∧ backwardPass [(3, 100)] [(3, 100)] = [(3, 100)] := by
  constructor
  · have h := backward_extension_spec.2.1 3 4 [] [(3, 4)] 1 (by decide) (by decide)
      (fun j hj1 hj2 => by
        refine ⟨by omega, ?_⟩
        interval_cases j <;> decide)
    simpa using h
  · exact backward_extension_spec.1 3 100 [] [(3, 100)] (by decide)

/-- C6: forward extension occurs exactly when the detected map has at least
two anchors and the last two anchors are physically adjacent; it then assigns
every page index after the last anchor `(idxN, numN)`, up to
`total_pages - 1` and not already mapped, the printed number
`numN + (idx - idxN)`, with no gap-size or upper-bound check. A document with
fewer than two detected anchors, or whose last two anchors are not adjacent,
receives no forward extension. -/
theorem forward_extension_spec :
    (∀ (m : PageMap) (total_pages idxN idxP : Nat) (numN numP : Int),
      (m.map Prod.fst).Nodup →
      (anchors m).getLast? = some (idxN, numN) →
      (anchors m).dropLast.getLast? = some (idxP, numP) →
      (idxN : Int) - (idxP : Int) = 1 →
      ∀ i, idxN < i → i < total_pages → lookupPage m i = none →
        lookupPage (interpolate_missing_pages m total_pages) i
          = some (numN + ((i : Int) - (idxN : Int))))
    ∧ (∀ (m : PageMap) (total_pages idxN : Nat) (numN : Int),
      (m.map Prod.fst).Nodup →
      (anchors m).getLast? = some (idxN, numN) →
      ((anchors m).dropLast.getLast? = none ∨
        ∀ (idxP : Nat) (numP : Int),
          (anchors m).dropLast.getLast? = some (idxP, numP) →
          (idxN : Int) - (idxP : Int) ≠ 1) →
      ∀ i, idxN < i →
        lookupPage (interpolate_missing_pages m total_pages) i = lookupPage m i) := by
  have hbase : ∀ (m : PageMap) (idxN : Nat) (numN : Int),
      (m.map Prod.fst).Nodup → (anchors m).getLast? = some (idxN, numN) →
      ∀ i, idxN < i →
        lookupPage (backwardPass (anchors m) (interiorPass m)) i = lookupPage m i := by
    intro m idxN numN hnd hl i hi
    have hplt := anchors_pairwise_lt hnd
    have hlast : ∀ x : Nat × Int, x ∈ anchors m → x.1 ≤ idxN :=
      fun x hx => pairwise_last_max hplt hl hx
    obtain ⟨a0, arest, hshape⟩ : ∃ a0 arest, anchors m = a0 :: arest := by
      cases hs : anchors m with
      | nil => rw [hs] at hl; simp at hl
      | cons a0 arest => exact ⟨a0, arest, rfl⟩
    have ha0 : a0.1 ≤ idxN :=
      hlast a0 (hshape ▸ List.mem_cons_self ..)
    rw [hshape, backwardPass_loc (by omega) _, interiorPass,
      foldl_fillPair_loc (consecPairs (anchors m)) (fun q hq ip =>
        fillPair_loc q (by
          have := hlast q.2 (consecPairs_mem hq).2
          omega) ip) m]
  constructor
  · intro m total_pages idxN idxP numN numP hnd hl hp hadj i hi1 hi2 hmi
    have hmne : m ≠ [] := by
      intro he
      rw [he, anchors_nil] at hl
      simp at hl
    rw [interpolate_eq_passes hmne]
    have hX := hbase m idxN numN hnd hl i hi1
    simp only [forwardPass, hl, hp]
    rw [if_pos hadj]
    have hsplit : List.range' (idxN + 1) (total_pages - (idxN + 1))
        = List.range' (idxN + 1) (i - (idxN + 1))
          ++ i :: List.range' (i + 1) ((idxN + 1) + (total_pages - (idxN + 1)) - (i + 1)) :=
      range'_split (by omega) (by omega)
    rw [hsplit]
    exact fillLoop_hit
      (fun j' hj' => by
        rw [List.mem_range'_1] at hj'
        show j' ≠ i
        omega)
      (by rw [hX]; exact hmi)
  · intro m total_pages idxN numN hnd hl hno i hi
    have hmne : m ≠ [] := by
      intro he
      rw [he, anchors_nil] at hl
      simp at hl
    rw [interpolate_eq_passes hmne]
    have hX := hbase m idxN numN hnd hl i hi
    cases hp : (anchors m).dropLast.getLast? with
    | none =>
        simp only [forwardPass, hl, hp]
        exact hX
    | some p =>
        obtain ⟨idxP, numP⟩ := p
        have hne : (idxN : Int) - (idxP : Int) ≠ 1 := by
          rcases hno with hno | hno
          · rw [hno] at hp; exact absurd hp (by simp)
          · exact hno idxP numP hp
        simp only [forwardPass, hl, hp]
        rw [if_neg hne]
        exact hX

theorem forward_extension_spec_witness :
    lookupPage (interpolate_missing_pages [(0, 3), (1, 4)] 4) 2 = some 5
      ∧ lookupPage (interpolate_missing_pages [(0, 3)] 4) 1 = lookupPage [(0, 3)] 1 := by
  constructor
  · have h := forward_extension_spec.1 [(0, 3), (1, 4)] 4 1 0 4 3 (by decide) (by decide)
      (by decide) (by decide) 2 (by decide) (by decide) (by decide)
    simpa using h
  · exact forward_extension_spec.2 [(0, 3)] 4 0 3 (by decide) (by decide)
      (Or.inl (by decide)) 1 (by decide)

theorem fillPair_vals {interp : PageMap} {pq : (Nat × Int) × (Nat × Int)}
    (hnum : 1 ≤ pq.1.2) (h : ∀ k v, lookupPage interp k = some v → 1 ≤ v) :
    ∀ k v, lookupPage (fillPair interp pq) k = some v → 1 ≤ v := by
  obtain ⟨⟨idx1, num1⟩, idx2, num2⟩ := pq
  simp only at hnum
  simp only [fillPair]
  split
  · split
    · refine fillLoop_vals ?_ interp h
      intro j hj
      rw [List.mem_range'_1] at hj
      show 1 ≤ num1 + (j : Int)
      omega
    · split
      · exact (skipFold_vals (List.range' 1 (idx2 - idx1 - 1)) (interp, num1) h
          (by omega)).1
      · exact h
  · exact h

theorem foldl_fillPair_vals :
    ∀ (L : List ((Nat × Int) × (Nat × Int))), (∀ q ∈ L, 1 ≤ q.1.2) →
      ∀ ip : PageMap, (∀ k v, lookupPage ip k = some v → 1 ≤ v) →
      ∀ k v, lookupPage (L.foldl fillPair ip) k = some v → 1 ≤ v := by
  intro L
  induction L with
  | nil => intro _ ip h; exact h
  | cons q L ih =>
      intro hq ip h
      rw [List.foldl_cons]
      exact ih (fun q' hq' => hq q' (List.mem_cons_of_mem _ hq')) _
        (fillPair_vals (hq q (List.mem_cons_self ..)) h)

/-- C10: if every printed number in the input detected map is at least 1, then
every printed number in the map returned by `interpolate_missing_pages` is at
least 1: interior fill and forward extension only assign values strictly above
the lower anchor's value, and backward extension stops before assigning any
number below 1. -/
theorem interpolate_values_ge_one
    (m : PageMap) (total_pages : Nat) (hnd : (m.map Prod.fst).Nodup)
    (hvals : ∀ k v, lookupPage m k = some v → 1 ≤ v) :
    ∀ k v, lookupPage (interpolate_missing_pages m total_pages) k = some v → 1 ≤ v := by
  by_cases hm : m = []
  · rw [hm]
    simp [interpolate_missing_pages, lookupPage]
  · rw [interpolate_eq_passes hm]
    have hanch : ∀ x : Nat × Int, x ∈ anchors m → 1 ≤ x.2 := by
      intro x hx
      have hxm : x ∈ m := (anchors_perm m).subset hx
      exact hvals x.1 x.2 (mem_lookupPage_of_nodup hnd hxm)
    have h1 : ∀ k v, lookupPage (interiorPass m) k = some v → 1 ≤ v := by
      rw [interiorPass]
      exact foldl_fillPair_vals (consecPairs (anchors m))
        (fun q hq => hanch q.1 (consecPairs_mem hq).1) m hvals
    have h2 : ∀ k v,
        lookupPage (backwardPass (anchors m) (interiorPass m)) k = some v → 1 ≤ v := by
      cases hs : anchors m with
      | nil => exact h1
      | cons a0 arest =>
          obtain ⟨idx0, num0⟩ := a0
          simp only [backwardPass]
          split
          · exact backLoop_vals idx0 num0 idx0 _ h1
          · exact h1
    cases hl : (anchors m).getLast? with
    | none => simp only [forwardPass, hl]; exact h2
    | some y =>
        obtain ⟨idxN, numN⟩ := y
        have hN : 1 ≤ numN := hanch (idxN, numN) (List.mem_of_mem_getLast? hl)
        cases hp : (anchors m).dropLast.getLast? with
        | none => simp only [forwardPass, hl, hp]; exact h2
        | some p =>
            obtain ⟨idxP, numP⟩ := p
            simp only [forwardPass, hl, hp]
            split
            · refine fillLoop_vals ?_ _ h2
              intro j hj
              rw [List.mem_range'_1] at hj
              show 1 ≤ numN + ((j : Int) - (idxN : Int))
              omega
            · exact h2

theorem interpolate_values_ge_one_witness :
    lookupPage (interpolate_missing_pages [(4, 2), (5, 3)] 9) 3 = some 1
      ∧ 1 ≤ (1 : Int) := by
  refine ⟨by decide, ?_⟩
  exact interpolate_values_ge_one [(4, 2), (5, 3)] 9 (by decide)
    (fun k v h => by
      have hm := lookupPage_some_mem h
      simp at hm
      omega) 3 1 (by decide)

/-! ## Claim theorems: detection -/

theorem scanPatterns_range :
    ∀ (ps : List (List Char → Option (List Char))) (line : List Char) (n : Nat),
      scanPatterns ps line = some n → 1 ≤ n ∧ n ≤ 9999 := by
  intro ps
  induction ps with
  | nil => intro line n h; simp [scanPatterns] at h
  | cons p ps ih =>
      intro line n h
      simp only [scanPatterns] at h
      cases hp : p line with
      | some ds =>
          rw [hp] at h
          simp only at h
          split at h
          · rename_i hc
            cases h
            exact hc
          · exact ih line n h
      | none =>
          rw [hp] at h
          exact ih line n h

theorem scanLines_range :
    ∀ (ls : List (List Char)) (n : Nat), scanLines ls = some n → 1 ≤ n ∧ n ≤ 9999 := by
  intro ls
  induction ls with
  | nil => intro n h; simp [scanLines] at h
  | cons l ls ih =>
      intro n h
      simp only [scanLines] at h
      cases hs : scanPatterns patterns l with
      | some k =>
          rw [hs] at h
          cases h
          exact scanPatterns_range patterns l n hs
      | none =>
          rw [hs] at h
          exact ih n h

/-- C7: for every page text (`None` and the empty string included),
`extract_page_number_from_text` either reports no detection or returns an
integer in `[1, 9999]`: a captured numeral outside that range is rejected and
scanning continues with the next pattern or line. -/
theorem extract_page_number_in_range
    (text : Option (List Char)) (n : Nat)
    (h : extractFromOptionalText text = some n) : 1 ≤ n ∧ n ≤ 9999 := by
  cases text with
  | none => simp [extractFromOptionalText] at h
  | some t =>
      simp only [extractFromOptionalText, extract_page_number_from_text] at h
      split at h
      · cases h
      · exact scanLines_range _ n h

theorem extract_page_number_in_range_witness :
    extractFromOptionalText (some ['4', '2']) = some 42 ∧ 1 ≤ 42 ∧ 42 ≤ 9999 :=
  ⟨by decide, extract_page_number_in_range (some ['4', '2']) 42 (by decide)⟩

theorem digit_not_pySpace {c : Char} (h : c.isDigit = true) : isPySpace c = false := by
  cases hsp : isPySpace c with
  | false => rfl
  | true =>
      exfalso
      simp only [isPySpace, Bool.or_eq_true, decide_eq_true_eq] at hsp
      rcases hsp with ((((h1 | h1) | h1) | h1) | h1) | h1 <;> subst h1 <;>
        exact absurd h (by decide)

theorem dropWhile_append_all {p : Char → Bool} {l1 l2 : List Char}
    (h : ∀ c ∈ l1, p c = true) :
    (l1 ++ l2).dropWhile p = l2.dropWhile p := by
  induction l1 with
  | nil => rfl
  | cons c l1 ih =>
      rw [List.cons_append, List.dropWhile_cons, if_pos (h c (List.mem_cons_self ..))]
      exact ih (fun c' hc' => h c' (List.mem_cons_of_mem _ hc'))

theorem takeWhile_all {p : Char → Bool} {l : List Char} (h : ∀ c ∈ l, p c = true) :
    l.takeWhile p = l := by
  induction l with
  | nil => rfl
  | cons c l ih =>
      rw [List.takeWhile_cons, if_pos (h c (List.mem_cons_self ..))]
      rw [ih (fun c' hc' => h c' (List.mem_cons_of_mem _ hc'))]

theorem dropWhile_all {p : Char → Bool} {l : List Char} (h : ∀ c ∈ l, p c = true) :
    l.dropWhile p = [] := by
  induction l with
  | nil => rfl
  | cons c l ih =>
      rw [List.dropWhile_cons, if_pos (h c (List.mem_cons_self ..))]
      exact ih (fun c' hc' => h c' (List.mem_cons_of_mem _ hc'))

theorem dropWhile_digits_head {d w : List Char} (hd : d ≠ [])
    (hdd : ∀ c ∈ d, c.isDigit = true) :
    (d ++ w).dropWhile isPySpace = d ++ w := by
  cases d with
  | nil => exact absurd rfl hd
  | cons c d' =>
      rw [List.cons_append, List.dropWhile_cons, if_neg]
      rw [digit_not_pySpace (hdd c (List.mem_cons_self ..))]
      exact Bool.false_ne_true

theorem pyStrip_sole_numeral {w1 d w2 : List Char}
    (hw1 : ∀ c ∈ w1, isPySpace c = true) (hw2 : ∀ c ∈ w2, isPySpace c = true)
    (hd : d ≠ []) (hdd : ∀ c ∈ d, c.isDigit = true) :
    pyStrip (w1 ++ d ++ w2) = d := by
  unfold pyStrip
  rw [List.append_assoc, dropWhile_append_all hw1, dropWhile_digits_head hd hdd,
    List.reverse_append, dropWhile_append_all (fun c hc => hw2 c (List.mem_reverse.mp hc))]
  have hne2 : d.reverse.dropWhile isPySpace = d.reverse := by
    cases hrev : d.reverse with
    | nil => rfl
    | cons c dr =>
        rw [List.dropWhile_cons, if_neg]
        have hc : c ∈ d := List.mem_reverse.mp (hrev ▸ List.mem_cons_self ..)
        rw [digit_not_pySpace (hdd c hc)]
        exact Bool.false_ne_true
  rw [hne2, List.reverse_reverse]

theorem splitAux_no_sep {sep : Char} :
    ∀ (s acc : List Char), (∀ c ∈ s, c ≠ sep) →
      splitAux sep s acc = [acc.reverse ++ s] := by
  intro s
  induction s with
  | nil => intro acc _; simp [splitAux]
  | cons c s ih =>
      intro acc h
      simp only [splitAux]
      rw [if_neg (h c (List.mem_cons_self ..)),
        ih (c :: acc) (fun c' hc' => h c' (List.mem_cons_of_mem _ hc'))]
      simp

theorem pySplit_no_sep {sep : Char} {s : List Char} (h : ∀ c ∈ s, c ≠ sep) :
    pySplit sep s = [s] := by
  rw [pySplit, splitAux_no_sep s [] h]
  rfl

theorem matchJustNumber_digits {d : List Char} (hd : d ≠ [])
    (hdd : ∀ c ∈ d, c.isDigit = true) : matchJustNumber d = some d := by
  simp only [matchJustNumber]
  rw [show d.dropWhile isPySpace = d from by
      have := @dropWhile_digits_head d [] hd hdd
      simpa using this,
    takeWhile_all hdd, dropWhile_all hdd]
  simp [hd]

/-- C8: for every page text consisting solely of a numeral (surrounded only by
whitespace, possibly including newlines) whose value `n` satisfies
`1 ≤ n ≤ 9999`, `extract_page_number_from_text` returns exactly `n`: after
`strip()` the numeral is the single remaining line, so it lies within the
first 5 scanned lines and the just-a-number pattern accepts it. -/
theorem extract_sole_numeral
    (w1 d w2 : List Char)
    (hw1 : ∀ c ∈ w1, isPySpace c = true) (hw2 : ∀ c ∈ w2, isPySpace c = true)
    (hd : d ≠ []) (hdd : ∀ c ∈ d, c.isDigit = true)
    (hlo : 1 ≤ digitsToNat d) (hhi : digitsToNat d ≤ 9999) :
    extract_page_number_from_text (w1 ++ d ++ w2) = some (digitsToNat d) := by
  have htext_ne : w1 ++ d ++ w2 ≠ [] := by
    intro he
    rw [List.append_assoc] at he
    rcases List.append_eq_nil.mp he with ⟨h1, h2⟩
    exact hd (List.append_eq_nil.mp h2).1
  rw [extract_page_number_from_text, if_neg htext_ne,
    pyStrip_sole_numeral hw1 hw2 hd hdd]
  have hnosep : ∀ c ∈ d, c ≠ '\n' := by
    intro c hc he
    have hcd := hdd c hc
    rw [he] at hcd
    exact absurd hcd (by decide)
  rw [pySplit_no_sep hnosep]
  show scanLines [d] = some (digitsToNat d)
  simp only [scanLines, patterns, scanPatterns, matchJustNumber_digits hd hdd]
  rw [if_pos ⟨hlo, hhi⟩]

theorem extract_sole_numeral_witness :
    extract_page_number_from_text ([' ', '\n'] ++ ['7'] ++ ['\t']) = some 7 := by
  have h := extract_sole_numeral [' ', '\n'] ['7'] ['\t']
    (by decide) (by decide) (by decide) (by decide) (by decide) (by decide)
  simpa using h

/-! ## Claim theorems: page-range parsing -/

theorem mem_intRange {a b x : Int} : x ∈ intRange a b ↔ a ≤ x ∧ x ≤ b := by
  unfold intRange
  constructor
  · intro hx
    rw [List.mem_map] at hx
    obtain ⟨j, hj, hxe⟩ := hx
    rw [List.mem_range] at hj
    omega
  · intro hab
    rw [List.mem_map]
    refine ⟨(x - a).toNat, ?_, ?_⟩
    · rw [List.mem_range]
      omega
    · omega

theorem foldl_tokenVals_mem :
    ∀ (parts : List (List Char)) (acc : List Int) (x : Int),
      (x ∈ parts.foldl (fun acc part => acc ++ tokenVals part) acc
        ↔ x ∈ acc ∨ ∃ part ∈ parts, x ∈ tokenVals part) := by
  intro parts
  induction parts with
  | nil => simp
  | cons p parts ih =>
      intro acc x
      rw [List.foldl_cons, ih]
      simp only [List.mem_append, List.mem_cons]
      constructor
      · rintro ((h | h) | ⟨part, hp, hx⟩)
        · exact Or.inl h
        · exact Or.inr ⟨p, Or.inl rfl, h⟩
        · exact Or.inr ⟨part, Or.inr hp, hx⟩
      · rintro (h | ⟨part, hp | hp, hx⟩)
        · exact Or.inl (Or.inl h)
        · exact Or.inl (Or.inr (hp ▸ hx))
        · exact Or.inr ⟨part, hp, hx⟩

/-- C9: `parse_page_ranges` is total (it never raises) and returns the
strictly sorted, duplicate-free union of the values of its tokens: a
dash-free token parsed by `int` contributes that integer, a dashed token
whose two halves parse with `a ≤ b` contributes every integer from `a` to
`b`, and an unparsable token or a reversed range contributes nothing without
stopping the processing of the remaining tokens. -/
theorem parse_page_ranges_spec (range_string : List Char) :
    List.Sorted (fun x y : Int => x < y) (parse_page_ranges range_string)
    ∧ (∀ x : Int, x ∈ parse_page_ranges range_string
        ↔ ∃ part ∈ (pySplit ',' range_string).map pyStrip, x ∈ tokenVals part)
    ∧ (∀ a b x : Int, x ∈ intRange a b ↔ a ≤ x ∧ x ≤ b) := by
  have heq : parse_page_ranges range_string
      = List.insertionSort (· ≤ ·)
          (((pySplit ',' range_string).map pyStrip).foldl
            (fun acc part => acc ++ tokenVals part) []).dedup := rfl
  refine ⟨?_, ?_, fun a b x => mem_intRange⟩
  · rw [heq]
    refine List.Sorted.lt_of_le (List.sorted_insertionSort (· ≤ ·) _) ?_
    exact (List.perm_insertionSort (· ≤ ·) _).nodup_iff.mpr (List.nodup_dedup _)
  · intro x
    rw [heq, (List.perm_insertionSort (· ≤ ·) _).mem_iff, List.mem_dedup,
      foldl_tokenVals_mem]
    simp

theorem parse_page_ranges_spec_witness :
    (3 : Int) ∈ parse_page_ranges
      [' ', '1', '-', '3', ',', ' ', 'x', ',', ' ', '7'] :=
  (parse_page_ranges_spec [' ', '1', '-', '3', ',', ' ', 'x', ',', ' ', '7']).2.1 3
    |>.mpr ⟨['1', '-', '3'], by decide, by decide⟩

end PdfPageFilter
